import Mathlib

/-!
Verification of the Masters fantasy-pool scoring engine
(`streamlit_app.py`) against its natural-language specification.

The source is shallowly embedded: each Python helper becomes a Lean
function on `List Char` / `String` / `Int`; the Python `dict` built by
`fetch_live_scores` becomes a duplicate-free association list; the
fallible refresh cycle (uncaught exceptions, `st.stop()`) becomes a
function into `Except CycleError`.  Strings are modelled over ASCII:
Python's `str.strip`, `str.lower`, `str.upper` and `int(...)` are
modelled for ASCII data, which covers every token shape the feed
contract allows ("E", signed decimal integers, status codes, names).
-/

/-! ### Character classes (ASCII models of the Python predicates) -/

/-- Whitespace as stripped by Python's `str.strip()` and `int(...)`,
restricted to ASCII: space, tab, LF, VT, FF, CR. -/
def isPyWS (c : Char) : Bool :=
  decide (c.toNat = 32 ∨ c.toNat = 9 ∨ c.toNat = 10 ∨ c.toNat = 11 ∨
    c.toNat = 13 ∨ c.toNat = 12)

/-- Decimal digit characters accepted by Python's `int(...)` (ASCII `0`-`9`). -/
def isDigitChar (c : Char) : Bool :=
  decide (48 ≤ c.toNat ∧ c.toNat ≤ 57)

/-- ASCII model of Python's per-character lower-casing (`str.lower`). -/
def lowerChar (c : Char) : Char :=
  if 65 ≤ c.toNat ∧ c.toNat ≤ 90 then Char.ofNat (c.toNat + 32) else c

/-- ASCII model of Python's per-character upper-casing (`str.upper`). -/
def upperChar (c : Char) : Char :=
  if 97 ≤ c.toNat ∧ c.toNat ≤ 122 then Char.ofNat (c.toNat - 32) else c

theorem toNat_ofNat_of_lt {n : Nat} (h : n < 55296) : (Char.ofNat n).toNat = n := by
  have hv : n.isValidChar := Or.inl h
  simp [Char.ofNat, hv, Char.ofNatAux, Char.toNat, UInt32.toNat]

theorem lowerChar_eq_self {c : Char} (h : ¬(65 ≤ c.toNat ∧ c.toNat ≤ 90)) :
    lowerChar c = c := by
  unfold lowerChar
  rw [if_neg h]

theorem toNat_lowerChar_of_upper {c : Char} (h : 65 ≤ c.toNat ∧ c.toNat ≤ 90) :
    (lowerChar c).toNat = c.toNat + 32 := by
  unfold lowerChar
  rw [if_pos h]
  exact toNat_ofNat_of_lt (by omega)

theorem isPyWS_lowerChar (c : Char) : isPyWS (lowerChar c) = isPyWS c := by
  by_cases hc : 65 ≤ c.toNat ∧ c.toNat ≤ 90
  · have h := toNat_lowerChar_of_upper hc
    have h1 : isPyWS (lowerChar c) = false := by simp [isPyWS, h]; omega
    have h2 : isPyWS c = false := by simp [isPyWS]; omega
    rw [h1, h2]
  · rw [lowerChar_eq_self hc]

theorem lowerChar_lowerChar (c : Char) : lowerChar (lowerChar c) = lowerChar c := by
  by_cases hc : 65 ≤ c.toNat ∧ c.toNat ≤ 90
  · apply lowerChar_eq_self
    rw [toNat_lowerChar_of_upper hc]
    omega
  · rw [lowerChar_eq_self hc]
    exact lowerChar_eq_self hc

/-! ### Python `str.strip()` on character lists -/

/-- Model of Python `str.strip()`: remove leading and trailing whitespace. -/
def pyStrip (l : List Char) : List Char :=
  ((l.dropWhile isPyWS).reverse.dropWhile isPyWS).reverse

theorem dropWhile_head_false {p : Char → Bool} {l : List Char} {c : Char} {t : List Char}
    (h : l.dropWhile p = c :: t) : p c = false := by
  induction l with
  | nil => simp [List.dropWhile] at h
  | cons a l ih =>
    by_cases hp : p a
    · rw [List.dropWhile_cons_of_pos hp] at h; exact ih h
    · rw [List.dropWhile_cons_of_neg hp] at h
      cases h; simpa using hp

theorem dropWhile_cons_self {p : Char → Bool} {c : Char} {t : List Char}
    (h : p c = false) : (c :: t).dropWhile p = c :: t :=
  List.dropWhile_cons_of_neg (by simp [h])

theorem dropWhile_idem (p : Char → Bool) (l : List Char) :
    (l.dropWhile p).dropWhile p = l.dropWhile p := by
  cases hd : l.dropWhile p with
  | nil => rfl
  | cons c t => exact dropWhile_cons_self (dropWhile_head_false hd)

theorem dropWhile_exists_append (p : Char → Bool) (l : List Char) :
    ∃ t, t ++ l.dropWhile p = l := by
  induction l with
  | nil => exact ⟨[], rfl⟩
  | cons c cs ih =>
    by_cases hp : p c
    · obtain ⟨t, ht⟩ := ih
      exact ⟨c :: t, by rw [List.dropWhile_cons_of_pos hp, List.cons_append, ht]⟩
    · exact ⟨[], by rw [List.dropWhile_cons_of_neg hp, List.nil_append]⟩

theorem pyStrip_idem (l : List Char) : pyStrip (pyStrip l) = pyStrip l := by
  have h1 : (pyStrip l).dropWhile isPyWS = pyStrip l := by
    cases hr : pyStrip l with
    | nil => rfl
    | cons c t =>
      apply dropWhile_cons_self
      obtain ⟨s, hs⟩ := dropWhile_exists_append isPyWS (l.dropWhile isPyWS).reverse
      have h3 : l.dropWhile isPyWS = pyStrip l ++ s.reverse := by
        have h4 := congrArg List.reverse hs
        simpa [pyStrip, List.reverse_append] using h4.symm
      rw [hr] at h3
      exact dropWhile_head_false h3
  have h2 : (pyStrip l).reverse.dropWhile isPyWS = (pyStrip l).reverse := by
    have h5 : (pyStrip l).reverse = (l.dropWhile isPyWS).reverse.dropWhile isPyWS := by
      simp [pyStrip]
    rw [h5, dropWhile_idem]
  calc pyStrip (pyStrip l)
      = (((pyStrip l).dropWhile isPyWS).reverse.dropWhile isPyWS).reverse := rfl
    _ = ((pyStrip l).reverse.dropWhile isPyWS).reverse := by rw [h1]
    _ = ((pyStrip l).reverse).reverse := by rw [h2]
    _ = pyStrip l := List.reverse_reverse _

theorem pyStrip_eq_self {l : List Char} (h : ∀ c ∈ l, isPyWS c = false) :
    pyStrip l = l := by
  have hd : ∀ (m : List Char), (∀ c ∈ m, isPyWS c = false) → m.dropWhile isPyWS = m := by
    intro m hm
    cases m with
    | nil => rfl
    | cons c t => exact dropWhile_cons_self (hm c (by simp))
  unfold pyStrip
  rw [hd l h, hd l.reverse (by intro c hc; exact h c (List.mem_reverse.mp hc)),
    List.reverse_reverse]

/-! ### Python `int(...)` on strings (base 10) -/

/-- Digit accumulator used by the integer parser. -/
def digitStep (a : Nat) (c : Char) : Nat := 10 * a + (c.toNat - 48)

/-- Parses the remainder of a decimal digit run, allowing single
underscores strictly between digits (Python 3.6+ literal grouping). -/
def parseRest : List Char → Nat → Option Nat
  | [], acc => some acc
  | c :: cs, acc =>
    if isDigitChar c then
      parseRest cs (digitStep acc c)
    else if c = '_' then
      match cs with
      | [] => none
      | c2 :: cs2 =>
        if isDigitChar c2 then parseRest cs2 (digitStep acc c2) else none
    else none

/-- Parses a non-empty decimal digit run (no sign, no surrounding space). -/
def parseDigits : List Char → Option Nat
  | [] => none
  | c :: cs => if isDigitChar c then parseRest cs (c.toNat - 48) else none

/-- Helper for `pyInt`: sign handling on the already-stripped character list. -/
def pyIntCore : List Char → Option Int
  | [] => none
  | c :: cs =>
    if c = '+' then Option.map (fun (m : Nat) => (m : Int)) (parseDigits cs)
    else if c = '-' then Option.map (fun (m : Nat) => -(m : Int)) (parseDigits cs)
    else Option.map (fun (m : Nat) => (m : Int)) (parseDigits (c :: cs))

/-- Model of Python `int(s)` for base-10 string input: strip whitespace,
optional single sign, non-empty digit run; any other shape raises, which
the model returns as `none`. -/
def pyInt (s : String) : Option Int :=
  pyIntCore (pyStrip s.data)

/-- Embedding of `normalize_topar` (`streamlit_app.py`, lines 61-64): the
exact string `"E"` maps to 0, otherwise Python `int(val)` is attempted and
any exception yields `None`.  The argument is the raw `topar` field, which
may be absent (`none`); `int(None)` raises `TypeError`, hence `none`. -/
def normalize_topar : Option String → Option Int
  | none => none
  | some v => if v = "E" then some 0 else pyInt v

/-! ### Python `str(n)` for integers -/

/-- Decimal digit characters of a natural number, most significant first. -/
def natDigits (m : Nat) : List Char :=
  if m < 10 then [Char.ofNat (m + 48)]
  else natDigits (m / 10) ++ [Char.ofNat (m % 10 + 48)]
termination_by m
decreasing_by exact Nat.div_lt_self (by omega) (by omega)

/-- Model of Python `str(n)` for an integer `n`: canonical decimal form,
with a leading minus sign exactly when `n` is negative. -/
def pyStr (n : Int) : String :=
  if n < 0 then String.mk ('-' :: natDigits n.natAbs) else String.mk (natDigits n.natAbs)

theorem digit_char_facts {d : Nat} (h : d < 10) :
    (Char.ofNat (d + 48)).toNat = d + 48 ∧ isDigitChar (Char.ofNat (d + 48)) = true ∧
      isPyWS (Char.ofNat (d + 48)) = false := by
  have ht : (Char.ofNat (d + 48)).toNat = d + 48 := toNat_ofNat_of_lt (by omega)
  refine ⟨ht, ?_, ?_⟩
  · simp only [isDigitChar, ht, decide_eq_true_eq]; omega
  · simp only [isPyWS, ht, decide_eq_false_iff_not]; omega

theorem natDigits_ne_nil (m : Nat) : natDigits m ≠ [] := by
  rw [natDigits]
  split <;> simp

theorem natDigits_all_digit (m : Nat) : ∀ c ∈ natDigits m, isDigitChar c = true := by
  induction m using Nat.strong_induction_on with
  | _ m ih =>
    rw [natDigits]
    split
    · next h =>
      intro c hc
      simp only [List.mem_singleton] at hc
      subst hc
      exact (digit_char_facts h).2.1
    · next h =>
      intro c hc
      rw [List.mem_append] at hc
      rcases hc with hc | hc
      · exact ih (m / 10) (Nat.div_lt_self (by omega) (by omega)) c hc
      · simp only [List.mem_singleton] at hc
        subst hc
        exact (digit_char_facts (Nat.mod_lt _ (by omega))).2.1

theorem natDigits_foldl (m : Nat) :
    ∀ acc, (natDigits m).foldl digitStep acc = acc * 10 ^ (natDigits m).length + m := by
  induction m using Nat.strong_induction_on with
  | _ m ih =>
    intro acc
    rw [natDigits]
    split
    · next h =>
      simp only [List.foldl_cons, List.foldl_nil, digitStep, (digit_char_facts h).1,
        List.length_singleton, pow_one]
      omega
    · next h =>
      have hlt : m / 10 < m := Nat.div_lt_self (by omega) (by omega)
      rw [List.foldl_append, ih (m / 10) hlt acc]
      have hc := (digit_char_facts (show m % 10 < 10 from Nat.mod_lt _ (by omega))).1
      simp only [List.foldl_cons, List.foldl_nil, digitStep, hc, List.length_append,
        List.length_singleton, pow_succ]
      have hmod : 10 * (m / 10) + m % 10 = m := Nat.div_add_mod m 10
      have h48 : m % 10 + 48 - 48 = m % 10 := by omega
      have goal_eq : 10 * (acc * (10 : ℕ) ^ (natDigits (m / 10)).length + m / 10) + m % 10 =
          acc * (10 ^ (natDigits (m / 10)).length * 10) + (10 * (m / 10) + m % 10) := by
        ring
      rw [h48, goal_eq, hmod]

theorem isDigitChar_not_ws {c : Char} (h : isDigitChar c = true) : isPyWS c = false := by
  simp only [isDigitChar, decide_eq_true_eq] at h
  simp only [isPyWS, decide_eq_false_iff_not]
  omega

theorem ne_of_toNat_ne {c d : Char} (h : c.toNat ≠ d.toNat) : c ≠ d :=
  fun he => h (he ▸ rfl)

theorem digit_not_plus {c : Char} (h : isDigitChar c = true) : c ≠ '+' := by
  simp only [isDigitChar, decide_eq_true_eq] at h
  exact ne_of_toNat_ne (by rw [show ('+').toNat = 43 from rfl]; omega)

theorem digit_not_minus {c : Char} (h : isDigitChar c = true) : c ≠ '-' := by
  simp only [isDigitChar, decide_eq_true_eq] at h
  exact ne_of_toNat_ne (by rw [show ('-').toNat = 45 from rfl]; omega)

theorem parseRest_digits (ds : List Char) :
    ∀ acc, (∀ c ∈ ds, isDigitChar c = true) →
      parseRest ds acc = some (ds.foldl digitStep acc) := by
  induction ds with
  | nil => intro acc _; rfl
  | cons c cs ih =>
    intro acc hall
    have hc : isDigitChar c = true := hall c (by simp)
    rw [List.foldl_cons]
    rw [parseRest.eq_def]
    dsimp only []
    rw [if_pos hc]
    exact ih _ (fun d hd => hall d (by simp [hd]))

theorem digitStep_zero (c : Char) : digitStep 0 c = c.toNat - 48 := by
  simp [digitStep]

theorem parseDigits_natDigits (m : Nat) : parseDigits (natDigits m) = some m := by
  cases hnd : natDigits m with
  | nil => exact absurd hnd (natDigits_ne_nil m)
  | cons c cs =>
    have hall : ∀ d ∈ c :: cs, isDigitChar d = true := by
      rw [← hnd]; exact natDigits_all_digit m
    have hc : isDigitChar c = true := hall c (by simp)
    rw [parseDigits.eq_def]
    dsimp only []
    rw [if_pos hc]
    rw [parseRest_digits cs _ (fun d hd => hall d (by simp [hd]))]
    have hfold : (c :: cs).foldl digitStep 0 = m := by
      rw [← hnd, natDigits_foldl m 0]
      simp
    rw [List.foldl_cons, digitStep_zero] at hfold
    rw [hfold]

theorem data_mk (l : List Char) : (String.mk l).data = l := rfl

theorem natDigits_not_ws (m : Nat) : ∀ c ∈ natDigits m, isPyWS c = false :=
  fun c hc => isDigitChar_not_ws (natDigits_all_digit m c hc)

theorem pyInt_pyStr (n : Int) : pyInt (pyStr n) = some n := by
  by_cases hn : n < 0
  · have hdata : (pyStr n).data = '-' :: natDigits n.natAbs := by
      rw [pyStr, if_pos hn, data_mk]
    have hstrip : pyStrip ((pyStr n).data) = '-' :: natDigits n.natAbs := by
      rw [hdata]
      apply pyStrip_eq_self
      intro c hc
      rcases List.mem_cons.mp hc with hc | hc
      · subst hc; decide
      · exact natDigits_not_ws _ c hc
    rw [pyInt, hstrip, pyIntCore.eq_def]
    dsimp only []
    rw [if_neg (by decide), if_pos rfl, parseDigits_natDigits]
    rw [Option.map_some']
    congr 1
    omega
  · have hdata : (pyStr n).data = natDigits n.natAbs := by
      rw [pyStr, if_neg hn, data_mk]
    have hstrip : pyStrip ((pyStr n).data) = natDigits n.natAbs := by
      rw [hdata]
      exact pyStrip_eq_self (natDigits_not_ws _)
    cases hnd : natDigits n.natAbs with
    | nil => exact absurd hnd (natDigits_ne_nil _)
    | cons c cs =>
      have hc : isDigitChar c = true :=
        natDigits_all_digit _ c (by rw [hnd]; simp)
      rw [pyInt, hstrip, hnd, pyIntCore.eq_def]
      dsimp only []
      rw [if_neg (digit_not_plus hc), if_neg (digit_not_minus hc), ← hnd,
        parseDigits_natDigits]
      rw [Option.map_some']
      congr 1
      omega

theorem pyStr_ne_E (n : Int) : pyStr n ≠ "E" := by
  intro h
  have hd := congrArg String.data h
  by_cases hn : n < 0
  · rw [pyStr, if_pos hn, data_mk] at hd
    have h5 : ('-' :: natDigits n.natAbs).head? = "E".data.head? := congrArg List.head? hd
    simp only [List.head?_cons, show "E".data = ['E'] from rfl] at h5
    exact absurd h5 (by decide)
  · rw [pyStr, if_neg hn, data_mk] at hd
    cases hnd : natDigits n.natAbs with
    | nil => exact absurd hnd (natDigits_ne_nil _)
    | cons c cs =>
      rw [hnd] at hd
      have hc : isDigitChar c = true := natDigits_all_digit _ c (by rw [hnd]; simp)
      have h5 : (c :: cs).head? = "E".data.head? := congrArg List.head? hd
      simp only [List.head?_cons, show "E".data = ['E'] from rfl] at h5
      rw [Option.some_inj] at h5
      subst h5
      simp [isDigitChar] at hc

theorem normalize_topar_pyStr (n : Int) : normalize_topar (some (pyStr n)) = some n := by
  rw [normalize_topar, if_neg (pyStr_ne_E n)]
  exact pyInt_pyStr n

/-! ### Feed records and the live-score index (`fetch_live_scores`) -/

/-- A raw feed player record, as consumed by the source: `full_name`,
`topar` (raw token, possibly absent), `status` (possibly absent, the
source defaults it to "OK"), and an optional image `id`. -/
structure PlayerRec where
  full_name : String
  topar : Option String
  status : Option String
  id : Option String
deriving DecidableEq

/-- Python `s.lower()` (ASCII model). -/
def pyLower (s : String) : String := String.mk (s.data.map lowerChar)

/-- Python `s.upper()` (ASCII model). -/
def pyUpper (s : String) : String := String.mk (s.data.map upperChar)

/-- Python `s.strip()` on strings. -/
def pyStripStr (s : String) : String := String.mk (pyStrip s.data)

/-- The index key used for both building and querying the feed index:
`name.strip().lower()`. -/
def keyOf (s : String) : String := pyLower (pyStripStr s)

/-- One insertion into a Python dict modelled as an association list with
unique keys: overwrite in place if the key exists, else append. -/
def dictInsert (m : List (String × PlayerRec)) (k : String) (v : PlayerRec) :
    List (String × PlayerRec) :=
  if m.any (fun kv => decide (kv.1 = k)) then
    m.map (fun kv => if kv.1 = k then (k, v) else kv)
  else m ++ [(k, v)]

/-- Embedding of the dict comprehension in `fetch_live_scores`
(`streamlit_app.py`, line 58): index the parsed player list by
`full_name.strip().lower()`; a later entry with the same key overwrites an
earlier one.  The HTTP fetch and envelope unpacking are outside the model;
the argument is the parsed player list (an unrecognized envelope yields
the empty list, matching the source returning `{}`). -/
def fetch_live_scores (ps : List PlayerRec) : List (String × PlayerRec) :=
  ps.foldl (fun m p => dictInsert m (keyOf p.full_name) p) []

/-- Python `data.get(key)` on the modelled dict. -/
def dictGet (m : List (String × PlayerRec)) (k : String) : Option PlayerRec :=
  Option.map Prod.snd (m.find? (fun kv => decide (kv.1 = k)))

/-- The dict's value view (`live_data.values()`). -/
def feedValues (m : List (String × PlayerRec)) : List PlayerRec := m.map Prod.snd

/-- Result shape of `get_player_score` (lines 67-74): the not-found branch
returns the 2-tuple `(None, "NOT FOUND")`; the found branch returns a
3-tuple `(score, status, id)`.  The two arities are modelled as two
constructors. -/
inductive GetScoreResult where
  | notFound
  | found (score : Option Int) (status : String) (id : Option String)
deriving DecidableEq

/-- Embedding of `get_player_score` (lines 67-74). -/
def get_player_score (name : String) (data : List (String × PlayerRec)) : GetScoreResult :=
  match dictGet data (keyOf name) with
  | none => .notFound
  | some p => .found (normalize_topar p.topar) (p.status.getD "OK") p.id

/-- Embedding of the `worst_score` expression (lines 83-87): Python
`max([...])` over the normalizable to-par values of the dict's values;
`max` of an empty list raises `ValueError`, modelled as `none`. -/
def worst_score (data : List (String × PlayerRec)) : Option Int :=
  match (feedValues data).filterMap (fun p => normalize_topar p.topar) with
  | [] => none
  | x :: xs => some (xs.foldl max x)

/-! ### Teams, rows and the refresh cycle -/

/-- A roster team: the person's name and the six tier picks
("Tier 1" .. "Tier 6" in the hardcoded roster data). -/
structure Team where
  Person : String
  tier1 : String
  tier2 : String
  tier3 : String
  tier4 : String
  tier5 : String
  tier6 : String
deriving DecidableEq

/-- The six tier slots of a team in iteration order (`for i in range(1, 7)`). -/
def teamTiers (t : Team) : List String :=
  [t.tier1, t.tier2, t.tier3, t.tier4, t.tier5, t.tier6]

/-- Fatal outcomes of one refresh cycle. `feedUnavailable` is the
`st.error` + `st.stop` path for an empty feed dict; `noResolvableScores`
is the uncaught `ValueError` from `max([])`; `unpackValueError` is the
uncaught `ValueError` raised when the caller unpacks the 2-tuple returned
by `get_player_score` for a missing player into three variables. -/
inductive CycleError where
  | feedUnavailable
  | noResolvableScores
  | unpackValueError
deriving DecidableEq

/-- One resolved roster slot: the (stripped) player name, the adjusted
score, and whether the penalty branch (`score is None or status == "C"`)
was taken — observable in the source as the red cut-score markup. -/
structure Slot where
  name : String
  adjusted : Int
  wasPenalized : Bool
deriving DecidableEq

/-- Embedding of one iteration of the player loop (lines 96-111):
strip the roster name, call `get_player_score`, then either substitute
`worst_score` (penalty branch) or keep the normalized score.  A missing
player makes the tuple unpacking on line 97 raise `ValueError`. -/
def slotResolve (worst : Int) (data : List (String × PlayerRec)) (rawName : String) :
    Except CycleError Slot :=
  let name := pyStripStr rawName
  match get_player_score name data with
  | .notFound => .error .unpackValueError
  | .found none _ _ => .ok ⟨name, worst, true⟩
  | .found (some s) status _ =>
    if pyUpper status = "C" then .ok ⟨name, worst, true⟩ else .ok ⟨name, s, false⟩

/-- A leaderboard row as built by the team loop: team name, the six
resolved slots, the six adjusted scores, and the best-5-of-6 total. -/
structure Row where
  Team : String
  Players : List Slot
  AdjustedScores : List Int
  Total : Int
deriving DecidableEq

/-- Resolves the six slots of a team in order; the first raised error
aborts the cycle. -/
def scoreSlots (worst : Int) (data : List (String × PlayerRec)) :
    List String → Except CycleError (List Slot)
  | [] => .ok []
  | n :: ns =>
    match slotResolve worst data n with
    | .error e => .error e
    | .ok s =>
      match scoreSlots worst data ns with
      | .error e => .error e
      | .ok rest => .ok (s :: rest)

/-- Python `sorted` on integers (ascending). -/
def pySortedInt (l : List Int) : List Int :=
  List.insertionSort (fun a b => a ≤ b) l

/-- Embedding of one iteration of the team loop (lines 93-114):
resolve the six slots, collect the adjusted scores, and set
`Total = sum(sorted(adjusted)[:5])`. -/
def scoreTeam (worst : Int) (data : List (String × PlayerRec)) (t : Team) :
    Except CycleError Row :=
  match scoreSlots worst data (teamTiers t) with
  | .error e => .error e
  | .ok slots =>
    .ok { Team := t.Person, Players := slots,
          AdjustedScores := slots.map Slot.adjusted,
          Total := ((pySortedInt (slots.map Slot.adjusted)).take 5).sum }

/-- The team loop over the whole roster, in roster order. -/
def buildRows (worst : Int) (data : List (String × PlayerRec)) :
    List Team → Except CycleError (List Row)
  | [] => .ok []
  | t :: ts =>
    match scoreTeam worst data t with
    | .error e => .error e
    | .ok r =>
      match buildRows worst data ts with
      | .error e => .error e
      | .ok rs => .ok (r :: rs)

/-- Row comparison used by `leaderboard.sort(key=lambda x: x["Total"])`. -/
def rowLe (a b : Row) : Prop := a.Total ≤ b.Total

instance : DecidableRel rowLe := fun a b => (inferInstance : Decidable (a.Total ≤ b.Total))

instance : IsTotal Row rowLe := ⟨fun a b => le_total a.Total b.Total⟩

instance : IsTrans Row rowLe := ⟨fun _ _ _ hab hbc => le_trans hab hbc⟩

/-- Python `list.sort` by total: a stable ascending sort, modelled by
insertion sort (extensionally equal to any stable ascending sort). -/
def sortRows (l : List Row) : List Row := List.insertionSort rowLe l

/-- One full refresh cycle over the scoring part of the script
(lines 77-117): empty feed dict stops with an error; `worst_score` is
computed next (raising `NoResolvableScores` when impossible); then the
team loop runs and the leaderboard is sorted by total. -/
def runCycle (teams : List Team) (ps : List PlayerRec) : Except CycleError (List Row) :=
  let live_data := fetch_live_scores ps
  if live_data.isEmpty then .error .feedUnavailable
  else
    match worst_score live_data with
    | none => .error .noResolvableScores
    | some w =>
      match buildRows w live_data teams with
      | .error e => .error e
      | .ok rows => .ok (sortRows rows)

instance {ε α : Type} [DecidableEq ε] [DecidableEq α] : DecidableEq (Except ε α) :=
  fun x y =>
    match x, y with
    | .error a, .error b =>
      if h : a = b then .isTrue (h ▸ rfl) else .isFalse (fun hh => h (Except.error.inj hh))
    | .ok a, .ok b =>
      if h : a = b then .isTrue (h ▸ rfl) else .isFalse (fun hh => h (Except.ok.inj hh))
    | .error _, .ok _ => .isFalse (fun hh => Except.noConfusion hh)
    | .ok _, .error _ => .isFalse (fun hh => Except.noConfusion hh)

/-! ### Helper lemmas: folded maximum -/

theorem le_foldl_max_self (xs : List Int) : ∀ x, x ≤ xs.foldl max x := by
  induction xs with
  | nil => intro x; exact le_refl x
  | cons y ys ih =>
    intro x
    rw [List.foldl_cons]
    exact le_trans (le_max_left x y) (ih (max x y))

theorem le_foldl_max_of_mem {xs : List Int} {y : Int} (h : y ∈ xs) :
    ∀ x, y ≤ xs.foldl max x := by
  induction xs with
  | nil => cases h
  | cons z zs ih =>
    intro x
    rw [List.foldl_cons]
    rcases List.mem_cons.mp h with hz | hz
    · subst hz
      exact le_trans (le_max_right x y) (le_foldl_max_self zs _)
    · exact ih hz _

theorem foldl_max_mem (xs : List Int) : ∀ x, xs.foldl max x ∈ x :: xs := by
  induction xs with
  | nil => intro x; simp
  | cons y ys ih =>
    intro x
    rw [List.foldl_cons]
    rcases max_choice x y with hc | hc <;> rw [hc]
    · rcases List.mem_cons.mp (ih x) with hm | hm
      · simp [hm]
      · simp [List.mem_cons, hm]
    · rcases List.mem_cons.mp (ih y) with hm | hm
      · simp [hm]
      · simp [List.mem_cons, hm]

/-! ### Helper lemmas: the worst-score pool -/

/-- The list of normalizable to-par values over the feed dict. -/
def scorePool (data : List (String × PlayerRec)) : List Int :=
  (feedValues data).filterMap (fun p => normalize_topar p.topar)

theorem worst_score_eq_pool (data : List (String × PlayerRec)) :
    worst_score data = match scorePool data with
      | [] => none
      | x :: xs => some (xs.foldl max x) := rfl

theorem mem_scorePool_iff {data : List (String × PlayerRec)} {v : Int} :
    v ∈ scorePool data ↔ ∃ p ∈ feedValues data, normalize_topar p.topar = some v := by
  simp [scorePool, List.mem_filterMap]

theorem worst_score_spec {data : List (String × PlayerRec)} {w : Int}
    (h : worst_score data = some w) :
    w ∈ scorePool data ∧ ∀ v ∈ scorePool data, v ≤ w := by
  rw [worst_score_eq_pool] at h
  cases hp : scorePool data with
  | nil => rw [hp] at h; cases h
  | cons x xs =>
    rw [hp] at h
    have hw : w = xs.foldl max x := (Option.some_inj.mp h).symm
    constructor
    · rw [hw]
      exact foldl_max_mem xs x
    · intro v hv
      rcases List.mem_cons.mp hv with hvx | hvx
      · subst hvx; rw [hw]; exact le_foldl_max_self xs v
      · rw [hw]; exact le_foldl_max_of_mem hvx x

theorem worst_score_none_iff (data : List (String × PlayerRec)) :
    worst_score data = none ↔ scorePool data = [] := by
  rw [worst_score_eq_pool]
  cases scorePool data <;> simp

/-! ### Helper lemmas: the feed dict -/

theorem dictInsert_ne_nil (m : List (String × PlayerRec)) (k : String) (v : PlayerRec) :
    dictInsert m k v ≠ [] := by
  unfold dictInsert
  split
  · next h =>
    cases m with
    | nil => simp at h
    | cons kv m => simp
  · simp

theorem fetch_live_scores_ne_nil {ps : List PlayerRec} (h : ps ≠ []) :
    fetch_live_scores ps ≠ [] := by
  have key : ∀ (qs : List PlayerRec) (acc : List (String × PlayerRec)),
      acc ≠ [] ∨ qs ≠ [] →
      qs.foldl (fun m p => dictInsert m (keyOf p.full_name) p) acc ≠ [] := by
    intro qs
    induction qs with
    | nil =>
      intro acc hd
      rcases hd with hd | hd
      · exact hd
      · exact absurd rfl hd
    | cons q qs ih =>
      intro acc _
      rw [List.foldl_cons]
      exact ih _ (Or.inl (dictInsert_ne_nil acc _ q))
  exact key ps [] (Or.inr h)

theorem feedValues_dictInsert {m : List (String × PlayerRec)} {k : String} {v q : PlayerRec}
    (h : q ∈ feedValues (dictInsert m k v)) : q ∈ feedValues m ∨ q = v := by
  unfold dictInsert at h
  split at h
  · simp only [feedValues, List.map_map, List.mem_map] at h
    obtain ⟨kv, hkv, hq⟩ := h
    by_cases hk : kv.1 = k
    · right
      simp only [Function.comp_apply, if_pos hk] at hq
      exact hq.symm
    · left
      simp only [Function.comp_apply, if_neg hk] at hq
      exact hq ▸ List.mem_map_of_mem Prod.snd hkv
  · simp only [feedValues, List.map_append, List.mem_append, List.map_cons, List.map_nil,
      List.mem_singleton] at h
    rcases h with h | h
    · exact Or.inl h
    · exact Or.inr h

theorem mem_feedValues_fetch {ps : List PlayerRec} {q : PlayerRec}
    (h : q ∈ feedValues (fetch_live_scores ps)) : q ∈ ps := by
  have key : ∀ (qs : List PlayerRec) (acc : List (String × PlayerRec)),
      q ∈ feedValues (qs.foldl (fun m p => dictInsert m (keyOf p.full_name) p) acc) →
      q ∈ feedValues acc ∨ q ∈ qs := by
    intro qs
    induction qs with
    | nil => intro acc hq; exact Or.inl hq
    | cons p qs ih =>
      intro acc hq
      rw [List.foldl_cons] at hq
      rcases ih _ hq with hq2 | hq2
      · rcases feedValues_dictInsert hq2 with hq3 | hq3
        · exact Or.inl hq3
        · exact Or.inr (by simp [hq3])
      · exact Or.inr (by simp [hq2])
  rcases key ps [] h with h2 | h2
  · cases h2
  · exact h2

theorem dictGet_mem {m : List (String × PlayerRec)} {k : String} {p : PlayerRec}
    (h : dictGet m k = some p) : p ∈ feedValues m := by
  unfold dictGet at h
  cases hf : m.find? (fun kv => decide (kv.1 = k)) with
  | none => rw [hf] at h; cases h
  | some kv =>
    rw [hf] at h
    simp only [Option.map_some', Option.some_inj] at h
    exact h ▸ List.mem_map_of_mem Prod.snd (List.mem_of_find?_eq_some hf)

/-! ### Helper lemmas: lookup-key normalization -/

theorem keyOf_data (s : String) : (keyOf s).data = (pyStrip s.data).map lowerChar := rfl

theorem pyStrip_map_lower (l : List Char) :
    pyStrip (l.map lowerChar) = (pyStrip l).map lowerChar := by
  have hws : (isPyWS ∘ lowerChar) = isPyWS := funext isPyWS_lowerChar
  unfold pyStrip
  rw [List.dropWhile_map, hws, ← List.map_reverse, List.dropWhile_map, hws,
    ← List.map_reverse]

theorem keyOf_idem (s : String) : keyOf (keyOf s) = keyOf s := by
  apply congrArg String.mk
  show (pyStrip ((keyOf s).data)).map lowerChar = (pyStrip s.data).map lowerChar
  rw [keyOf_data, pyStrip_map_lower, pyStrip_idem, List.map_map]
  apply List.map_congr_left
  intro c _
  exact lowerChar_lowerChar c

/-! ### Helper lemmas: slot and row inversion -/

theorem keyOf_pyStripStr (s : String) : keyOf (pyStripStr s) = keyOf s := by
  apply congrArg String.mk
  show (pyStrip ((pyStripStr s).data)).map lowerChar = (pyStrip s.data).map lowerChar
  rw [show (pyStripStr s).data = pyStrip s.data from rfl, pyStrip_idem]

theorem slotResolve_ok_inv {w : Int} {data : List (String × PlayerRec)} {n : String} {s : Slot}
    (h : slotResolve w data n = .ok s) :
    ∃ p, dictGet data (keyOf n) = some p ∧ s.name = pyStripStr n ∧
      (s.wasPenalized = true ↔
        (normalize_topar p.topar = none ∨ pyUpper (p.status.getD "OK") = "C")) ∧
      (s.wasPenalized = true → s.adjusted = w) ∧
      (s.wasPenalized = false → normalize_topar p.topar = some s.adjusted) := by
  unfold slotResolve get_player_score at h
  dsimp only [] at h
  rw [keyOf_pyStripStr] at h
  cases hget : dictGet data (keyOf n) with
  | none => rw [hget] at h; cases h
  | some p =>
    rw [hget] at h
    dsimp only [] at h
    refine ⟨p, rfl, ?_⟩
    cases hnorm : normalize_topar p.topar with
    | none =>
      rw [hnorm] at h
      dsimp only [] at h
      cases h
      exact ⟨rfl, by simp, fun _ => rfl, by simp⟩
    | some v =>
      rw [hnorm] at h
      dsimp only [] at h
      by_cases hcut : pyUpper (p.status.getD "OK") = "C"
      · rw [if_pos hcut] at h
        cases h
        exact ⟨rfl, by simp [hcut], fun _ => rfl, by simp⟩
      · rw [if_neg hcut] at h
        cases h
        exact ⟨rfl, by simp [hcut], by simp, fun _ => rfl⟩

theorem scoreSlots_ok_inv {w : Int} {data : List (String × PlayerRec)} :
    ∀ {ns : List String} {slots : List Slot}, scoreSlots w data ns = .ok slots →
      slots.length = ns.length ∧ ∀ s ∈ slots, ∃ n ∈ ns, slotResolve w data n = .ok s := by
  intro ns
  induction ns with
  | nil =>
    intro slots h
    cases h
    exact ⟨rfl, by simp⟩
  | cons n ns ih =>
    intro slots h
    unfold scoreSlots at h
    cases hr : slotResolve w data n with
    | error e => rw [hr] at h; cases h
    | ok s =>
      rw [hr] at h
      dsimp only [] at h
      cases hrest : scoreSlots w data ns with
      | error e => rw [hrest] at h; cases h
      | ok rest =>
        rw [hrest] at h
        dsimp only [] at h
        cases h
        obtain ⟨hlen, hmem⟩ := ih hrest
        refine ⟨by simp [hlen], ?_⟩
        intro s2 hs2
        rcases List.mem_cons.mp hs2 with hs2 | hs2
        · exact ⟨n, by simp, hs2 ▸ hr⟩
        · obtain ⟨n2, hn2, hres⟩ := hmem s2 hs2
          exact ⟨n2, by simp [hn2], hres⟩

theorem scoreTeam_ok_inv {w : Int} {data : List (String × PlayerRec)} {t : Team} {row : Row}
    (h : scoreTeam w data t = .ok row) :
    ∃ slots, scoreSlots w data (teamTiers t) = .ok slots ∧
      row.Team = t.Person ∧ row.Players = slots ∧
      row.AdjustedScores = slots.map Slot.adjusted ∧
      row.Total = ((pySortedInt (slots.map Slot.adjusted)).take 5).sum := by
  unfold scoreTeam at h
  cases hs : scoreSlots w data (teamTiers t) with
  | error e => rw [hs] at h; cases h
  | ok slots =>
    rw [hs] at h
    dsimp only [] at h
    cases h
    exact ⟨slots, rfl, rfl, rfl, rfl, rfl⟩

theorem buildRows_ok_inv {w : Int} {data : List (String × PlayerRec)} :
    ∀ {ts : List Team} {rows : List Row}, buildRows w data ts = .ok rows →
      ∀ r ∈ rows, ∃ t ∈ ts, scoreTeam w data t = .ok r := by
  intro ts
  induction ts with
  | nil =>
    intro rows h
    cases h
    simp
  | cons t ts ih =>
    intro rows h
    unfold buildRows at h
    cases hr : scoreTeam w data t with
    | error e => rw [hr] at h; cases h
    | ok r =>
      rw [hr] at h
      dsimp only [] at h
      cases hrest : buildRows w data ts with
      | error e => rw [hrest] at h; cases h
      | ok rest =>
        rw [hrest] at h
        dsimp only [] at h
        cases h
        intro r2 hr2
        rcases List.mem_cons.mp hr2 with hr2 | hr2
        · exact ⟨t, by simp, hr2 ▸ hr⟩
        · obtain ⟨t2, ht2, hres⟩ := ih hrest r2 hr2
          exact ⟨t2, by simp [ht2], hres⟩

theorem runCycle_ok_inv {ts : List Team} {ps : List PlayerRec} {rows : List Row}
    (h : runCycle ts ps = .ok rows) :
    ∃ w raws, worst_score (fetch_live_scores ps) = some w ∧
      buildRows w (fetch_live_scores ps) ts = .ok raws ∧ rows = sortRows raws := by
  unfold runCycle at h
  by_cases he : (fetch_live_scores ps).isEmpty
  · rw [if_pos he] at h; cases h
  · rw [if_neg he] at h
    cases hw : worst_score (fetch_live_scores ps) with
    | none => rw [hw] at h; cases h
    | some w =>
      rw [hw] at h
      dsimp only [] at h
      cases hb : buildRows w (fetch_live_scores ps) ts with
      | error e => rw [hb] at h; cases h
      | ok raws =>
        rw [hb] at h
        dsimp only [] at h
        cases h
        exact ⟨w, raws, rfl, hb, rfl⟩

/-! ### Helper lemmas: sorting -/

theorem sum_take5_eq {l : List Int} (hlen : l.length = 6) :
    ∃ m, l.maximum = some m ∧ ((pySortedInt l).take 5).sum = l.sum - m := by
  have hperm : (pySortedInt l).Perm l := List.perm_insertionSort _ l
  have hslen : (pySortedInt l).length = 6 := hperm.length_eq.trans hlen
  have hsorted : List.Sorted (fun a b : Int => a ≤ b) (pySortedInt l) :=
    List.sorted_insertionSort _ l
  have h5 : (5 : Nat) < (pySortedInt l).length := by omega
  have hdrop : (pySortedInt l).drop 5 = [(pySortedInt l).get ⟨5, h5⟩] := by
    rw [List.drop_eq_getElem_cons h5, List.drop_eq_nil_of_le (by omega)]
    rfl
  have hmax : l.maximum = some ((pySortedInt l).get ⟨5, h5⟩) := by
    apply List.maximum_eq_coe_iff.mpr
    constructor
    · exact hperm.mem_iff.mp (List.get_mem _ _ h5)
    · intro a ha
      obtain ⟨i, hi⟩ := List.mem_iff_get.mp (hperm.mem_iff.mpr ha)
      have hle : i ≤ (⟨5, h5⟩ : Fin (pySortedInt l).length) := by
        rw [Fin.le_def]
        show i.val ≤ 5
        have h6 := i.isLt
        omega
      have hrel := List.Sorted.rel_get_of_le hsorted hle
      rw [hi] at hrel
      exact hrel
  refine ⟨(pySortedInt l).get ⟨5, h5⟩, hmax, ?_⟩
  have hsum : l.sum = (pySortedInt l).sum := hperm.sum_eq.symm
  have hsplit : (pySortedInt l).sum =
      ((pySortedInt l).take 5).sum + (pySortedInt l).get ⟨5, h5⟩ := by
    conv_lhs => rw [← List.take_append_drop 5 (pySortedInt l)]
    rw [List.sum_append, hdrop]
    simp
  omega

theorem filter_orderedInsert (a : Row) (l : List Row) (t : Int) :
    (List.orderedInsert rowLe a l).filter (fun r => decide (r.Total = t)) =
      (a :: l).filter (fun r => decide (r.Total = t)) := by
  rw [List.orderedInsert_eq_take_drop, List.filter_append, List.filter_cons, List.filter_cons]
  have hl : l.filter (fun r => decide (r.Total = t)) =
      (List.takeWhile (fun b => decide ¬rowLe a b) l).filter (fun r => decide (r.Total = t)) ++
      (List.dropWhile (fun b => decide ¬rowLe a b) l).filter (fun r => decide (r.Total = t)) := by
    rw [← List.filter_append, List.takeWhile_append_dropWhile]
  by_cases hat : a.Total = t
  · have htake : (List.takeWhile (fun b => decide ¬rowLe a b) l).filter
        (fun r => decide (r.Total = t)) = [] := by
      rw [List.filter_eq_nil_iff]
      intro b hb
      have hb2 := List.mem_takeWhile_imp hb
      simp only [decide_eq_true_eq] at hb2 ⊢
      unfold rowLe at hb2
      omega
    rw [if_pos (by simp [hat]), if_pos (by simp [hat]), hl, htake, List.nil_append,
      List.nil_append]
  · rw [if_neg (by simp [hat]), if_neg (by simp [hat]), hl]

theorem filter_sortRows (t : Int) (l : List Row) :
    (sortRows l).filter (fun r => decide (r.Total = t)) =
      l.filter (fun r => decide (r.Total = t)) := by
  induction l with
  | nil => rfl
  | cons a l ih =>
    have hcons : sortRows (a :: l) = List.orderedInsert rowLe a (sortRows l) := rfl
    rw [hcons, filter_orderedInsert, List.filter_cons, List.filter_cons, ih]

theorem sortRows_sorted (l : List Row) :
    List.Chain' (fun a b : Row => a.Total ≤ b.Total) (sortRows l) := by
  have h := (List.sorted_insertionSort rowLe l).chain'
  exact h

theorem sortRows_perm (l : List Row) : (sortRows l).Perm l :=
  List.perm_insertionSort rowLe l

/-! ### Helper lemmas: the worst score ignores status and id fields -/

theorem dictInsert_map (g : PlayerRec → PlayerRec) (m : List (String × PlayerRec))
    (k : String) (v : PlayerRec) :
    dictInsert (m.map (fun kv => (kv.1, g kv.2))) k (g v) =
      (dictInsert m k v).map (fun kv => (kv.1, g kv.2)) := by
  unfold dictInsert
  have hany : (m.map (fun kv => (kv.1, g kv.2))).any (fun kv => decide (kv.1 = k)) =
      m.any (fun kv => decide (kv.1 = k)) := by
    rw [List.any_map]
    rfl
  rw [hany]
  by_cases ha : m.any (fun kv => decide (kv.1 = k)) = true
  · rw [if_pos ha, if_pos ha, List.map_map, List.map_map]
    apply List.map_congr_left
    intro kv _
    simp only [Function.comp_apply]
    by_cases hk : kv.1 = k
    · simp [hk]
    · simp [hk]
  · rw [if_neg ha, if_neg ha, List.map_append]
    rfl

theorem fetch_map_g (g : PlayerRec → PlayerRec) (hg : ∀ p, (g p).full_name = p.full_name)
    (ps : List PlayerRec) :
    fetch_live_scores (ps.map g) =
      (fetch_live_scores ps).map (fun kv => (kv.1, g kv.2)) := by
  have key : ∀ (qs : List PlayerRec) (acc : List (String × PlayerRec)),
      (qs.map g).foldl (fun m p => dictInsert m (keyOf p.full_name) p)
          (acc.map (fun kv => (kv.1, g kv.2))) =
      (qs.foldl (fun m p => dictInsert m (keyOf p.full_name) p) acc).map
          (fun kv => (kv.1, g kv.2)) := by
    intro qs
    induction qs with
    | nil => intro acc; rfl
    | cons q qs ih =>
      intro acc
      rw [List.map_cons, List.foldl_cons, List.foldl_cons, hg q,
        dictInsert_map g acc (keyOf q.full_name) q]
      exact ih _
  have h0 := key ps []
  simpa using h0

theorem scorePool_map (g : PlayerRec → PlayerRec) (hg2 : ∀ p, (g p).topar = p.topar)
    (idx : List (String × PlayerRec)) :
    scorePool (idx.map (fun kv => (kv.1, g kv.2))) = scorePool idx := by
  induction idx with
  | nil => rfl
  | cons kv idx ih =>
    unfold scorePool feedValues at *
    rw [List.map_cons, List.map_cons, List.filterMap_cons, List.map_cons,
      List.filterMap_cons]
    dsimp only []
    rw [hg2 kv.2, ih]

theorem worst_score_map_g (g : PlayerRec → PlayerRec)
    (hg1 : ∀ p, (g p).full_name = p.full_name) (hg2 : ∀ p, (g p).topar = p.topar)
    (ps : List PlayerRec) :
    worst_score (fetch_live_scores (ps.map g)) = worst_score (fetch_live_scores ps) := by
  have hpool : scorePool (fetch_live_scores (ps.map g)) =
      scorePool (fetch_live_scores ps) := by
    rw [fetch_map_g g hg1]
    exact scorePool_map g hg2 _
  rw [worst_score_eq_pool, worst_score_eq_pool, hpool]

/-! ### Case-insensitive status comparison -/

theorem char_eq_of_toNat_eq {c d : Char} (h : c.toNat = d.toNat) : c = d := by
  apply Char.ext
  simp only [Char.toNat] at h
  exact UInt32.toNat.inj h

theorem upperChar_eq_C_iff (c : Char) : upperChar c = 'C' ↔ (c = 'C' ∨ c = 'c') := by
  constructor
  · intro h
    unfold upperChar at h
    by_cases hc : 97 ≤ c.toNat ∧ c.toNat ≤ 122
    · rw [if_pos hc] at h
      have ht := congrArg Char.toNat h
      rw [toNat_ofNat_of_lt (by omega)] at ht
      rw [show ('C').toNat = 67 from rfl] at ht
      right
      apply char_eq_of_toNat_eq
      rw [show ('c').toNat = 99 from rfl]
      omega
    · rw [if_neg hc] at h
      exact Or.inl h
  · intro h
    rcases h with h | h <;> subst h <;> decide

theorem pyUpper_eq_C_iff (s : String) : pyUpper s = "C" ↔ (s = "C" ∨ s = "c") := by
  constructor
  · intro h
    have hd : s.data.map upperChar = ['C'] := congrArg String.data h
    cases hsd : s.data with
    | nil => rw [hsd] at hd; simp at hd
    | cons c cs =>
      rw [hsd, List.map_cons] at hd
      injection hd with h1 h2
      have hcs : cs = [] := by simpa using h2
      rcases (upperChar_eq_C_iff c).mp h1 with hc | hc
      · left
        apply String.ext
        rw [hsd, hc, hcs]
      · right
        apply String.ext
        rw [hsd, hc, hcs]
  · intro h
    rcases h with h | h <;> subst h <;> decide

/-! ### Concrete data used by witnesses and counterexamples -/

/-- Feed entry: even par, playing. -/
def feedA : PlayerRec := ⟨"Alpha One", some "E", some "OK", none⟩

/-- Feed entry: three under, playing. -/
def feedB : PlayerRec := ⟨"Beta Two", some "-3", some "OK", none⟩

/-- Feed entry: five over, cut. -/
def feedC : PlayerRec := ⟨"Gamma Three", some "5", some "C", none⟩

/-- Feed entry whose to-par token does not normalize. -/
def feedBad : PlayerRec := ⟨"Delta Four", some "WD", none, none⟩

/-- Feed entry whose real (non-penalized) score equals the worst score. -/
def feedSolo : PlayerRec := ⟨"Solo Max", some "3", some "OK", none⟩

/-- A roster team whose six picks are all present in the feed. -/
def teamPat : Team :=
  ⟨"Pat", "Alpha One", "Beta Two", "Gamma Three", "Alpha One", "Beta Two", "Gamma Three"⟩

/-- A second team with the same multiset of picks (equal total to `teamPat`). -/
def teamQue : Team :=
  ⟨"Que", "Gamma Three", "Beta Two", "Alpha One", "Alpha One", "Beta Two", "Gamma Three"⟩

/-- A roster team whose first pick is absent from the feed. -/
def teamMiss : Team :=
  ⟨"Quinn", "Absent Player", "Beta Two", "Gamma Three", "Alpha One", "Beta Two", "Gamma Three"⟩

/-- The row computed for `teamPat` against `[feedA, feedB, feedC]`. -/
def rowPat : Row :=
  ⟨"Pat",
   [⟨"Alpha One", 0, false⟩, ⟨"Beta Two", -3, false⟩, ⟨"Gamma Three", 5, true⟩,
    ⟨"Alpha One", 0, false⟩, ⟨"Beta Two", -3, false⟩, ⟨"Gamma Three", 5, true⟩],
   [0, -3, 5, 0, -3, 5], -1⟩

/-- The row computed for `teamQue` against `[feedA, feedB, feedC]`. -/
def rowQue : Row :=
  ⟨"Que",
   [⟨"Gamma Three", 5, true⟩, ⟨"Beta Two", -3, false⟩, ⟨"Alpha One", 0, false⟩,
    ⟨"Alpha One", 0, false⟩, ⟨"Beta Two", -3, false⟩, ⟨"Gamma Three", 5, true⟩],
   [5, -3, 0, 0, -3, 5], -1⟩

/-! ### The claims -/

/-- C1: the claim (and the spec) say a roster name absent from the feed
index is the expected, handled case: the resolver returns a penalized
sentinel, `worstScore` is substituted, and a `TeamResult` is still
produced.  The code violates this: `get_player_score` returns the 2-tuple
`(None, "NOT FOUND")` while the caller unpacks three values
(`score, status, pid = ...`, line 97), raising `ValueError` and aborting
the whole cycle.  This theorem evaluates the embedded cycle at a feed of
three resolvable players and a roster containing one absent name: the
cycle produces an error, not a leaderboard. -/
theorem c1_missing_player_aborts_cycle :
    runCycle [teamMiss] [feedA, feedB, feedC] = .error CycleError.unpackValueError := by
  decide

/-- C2: if the parsed feed index is non-empty but no entry's to-par token
normalizes, the cycle fails with `NoResolvableScores`; like
`FeedUnavailable` this is a `CycleError` surfaced to the caller, and no
leaderboard value is produced. -/
theorem c2_no_resolvable_scores (teams : List Team) (ps : List PlayerRec)
    (hne : ps ≠ []) (hall : ∀ p ∈ ps, normalize_topar p.topar = none) :
    runCycle teams ps = .error CycleError.noResolvableScores := by
  have hfetch : fetch_live_scores ps ≠ [] := fetch_live_scores_ne_nil hne
  have hpool : scorePool (fetch_live_scores ps) = [] := by
    apply List.filterMap_eq_nil_iff.mpr
    intro p hp
    exact hall p (mem_feedValues_fetch hp)
  have hw : worst_score (fetch_live_scores ps) = none := (worst_score_none_iff _).mpr hpool
  unfold runCycle
  dsimp only []
  rw [if_neg (by simp [List.isEmpty_iff, hfetch]), hw]

/-- C2 witness: a one-entry feed whose only to-par token is "WD". -/
theorem c2_witness :
    runCycle [teamPat] [feedBad] = .error CycleError.noResolvableScores :=
  c2_no_resolvable_scores [teamPat] [feedBad] (by decide) (by decide)

/-- C3: `worst_score` is the maximum of `normalize_topar` over exactly the
feed-index entries whose token normalizes — attained by one of them and an
upper bound for all of them — and it ignores the `status` (so cut entries
are included on the same footing) and `id` fields; it depends only on the
feed, not on the roster (`worst_score` takes no roster argument, and
`runCycle` computes it before the team loop). -/
theorem c3_worst_score_characterization (ps : List PlayerRec) (w : Int)
    (h : worst_score (fetch_live_scores ps) = some w) :
    (∃ p ∈ feedValues (fetch_live_scores ps), normalize_topar p.topar = some w) ∧
    (∀ p ∈ feedValues (fetch_live_scores ps), ∀ v, normalize_topar p.topar = some v → v ≤ w) ∧
    (∀ g : PlayerRec → PlayerRec, (∀ q, (g q).full_name = q.full_name) →
      (∀ q, (g q).topar = q.topar) →
      worst_score (fetch_live_scores (ps.map g)) = some w) := by
  obtain ⟨hmem, hub⟩ := worst_score_spec h
  refine ⟨mem_scorePool_iff.mp hmem, ?_, ?_⟩
  · intro p hp v hv
    exact hub v (mem_scorePool_iff.mpr ⟨p, hp, hv⟩)
  · intro g hg1 hg2
    rw [worst_score_map_g g hg1 hg2, h]

/-- C3 witness: on the three-player feed the worst score is 5 — the score
of the cut player `feedC`, confirming cut entries are in the pool. -/
theorem c3_witness :
    worst_score (fetch_live_scores [feedA, feedB, feedC]) = some 5 ∧
    (∃ p ∈ feedValues (fetch_live_scores [feedA, feedB, feedC]),
      normalize_topar p.topar = some 5) :=
  ⟨by decide, (c3_worst_score_characterization [feedA, feedB, feedC] 5 (by decide)).1⟩

/-- C4: every produced team row has 6 adjusted scores, its total is the
sum of the first five of the ascending sort of those scores, and that sum
equals the sum of all six minus one maximal value. -/
theorem c4_total_is_best_five (w : Int) (data : List (String × PlayerRec)) (t : Team)
    (row : Row) (h : scoreTeam w data t = .ok row) :
    row.AdjustedScores.length = 6 ∧
    row.Total = ((pySortedInt row.AdjustedScores).take 5).sum ∧
    ∃ m, row.AdjustedScores.maximum = some m ∧
      row.Total = row.AdjustedScores.sum - m := by
  obtain ⟨slots, hs, _, _, hadj, htotal⟩ := scoreTeam_ok_inv h
  have hlen : slots.length = 6 := by
    have := (scoreSlots_ok_inv hs).1
    simpa [teamTiers] using this
  have hlen6 : row.AdjustedScores.length = 6 := by
    rw [hadj, List.length_map]
    exact hlen
  refine ⟨hlen6, by rw [htotal, hadj], ?_⟩
  obtain ⟨m, hm, hsum⟩ := sum_take5_eq hlen6
  exact ⟨m, hm, by rw [htotal, ← hadj, hsum]⟩

/-- C4 witness: evaluated on `teamPat`, whose scores are
`[0, -3, 5, 0, -3, 5]` with total `-1 = (-1) - 0 + ... = 4 - 5`. -/
theorem c4_witness :
    rowPat.AdjustedScores.length = 6 ∧
    rowPat.Total = ((pySortedInt rowPat.AdjustedScores).take 5).sum ∧
    ∃ m, rowPat.AdjustedScores.maximum = some m ∧
      rowPat.Total = rowPat.AdjustedScores.sum - m :=
  c4_total_is_best_five 5 (fetch_live_scores [feedA, feedB, feedC]) teamPat rowPat
    (by decide)

/-- C5: `normalize_topar` maps "E" to 0, maps the decimal rendering of
every integer back to that integer, maps any other (non-"E",
non-parseable) input to `none`, and maps an absent token to `none`; it is
a total function, so no input raises. -/
theorem c5_normalize_contract :
    normalize_topar (some "E") = some 0 ∧
    (∀ n : Int, normalize_topar (some (pyStr n)) = some n) ∧
    (∀ s : String, s ≠ "E" → pyInt s = none → normalize_topar (some s) = none) ∧
    normalize_topar none = none := by
  refine ⟨by decide, normalize_topar_pyStr, ?_, rfl⟩
  intro s hs hp
  show (if s = "E" then some 0 else pyInt s) = none
  rw [if_neg hs]
  exact hp

/-- C5 witness: a garbage token maps to `none`; the theorem's roundtrip
clause applied at 7. -/
theorem c5_witness :
    normalize_topar (some "xyz") = none ∧ normalize_topar (some (pyStr 7)) = some 7 :=
  ⟨c5_normalize_contract.2.2.1 "xyz" (by decide) (by decide),
   c5_normalize_contract.2.1 7⟩

/-- C6 counterexample: the claim says a found player's adjusted score
equals `worstScore` **iff** the player is cut or their token fails to
normalize.  The backward direction holds, but the forward direction is
false: in a feed whose only entry is `Solo Max` at "+3 OK", the worst
score is 3 and the player's ordinary (non-penalized) adjusted score is
also 3, while the status is not "C" and the token normalizes. -/
theorem c6_counterexample :
    dictGet (fetch_live_scores [feedSolo]) (keyOf "Solo Max") = some feedSolo ∧
    worst_score (fetch_live_scores [feedSolo]) = some 3 ∧
    slotResolve 3 (fetch_live_scores [feedSolo]) "Solo Max" =
      .ok ⟨"Solo Max", 3, false⟩ ∧
    ¬(pyUpper (feedSolo.status.getD "OK") = "C" ∨
        normalize_topar feedSolo.topar = none) := by
  refine ⟨by decide, by decide, by decide, by decide⟩

/-- C6 (amended): for every player found in the feed index, the penalty
branch is taken iff the status upper-cases to "C" (equivalently, the
status is "C" or "c") or the to-par token fails to normalize; when taken
the adjusted score is `worstScore`, otherwise the adjusted score is the
normalized to-par value (which may coincidentally equal `worstScore`);
the status defaults to "OK" when the field is absent. -/
theorem c6_found_player_adjusted (w : Int) (data : List (String × PlayerRec))
    (name : String) (p : PlayerRec) (hfind : dictGet data (keyOf name) = some p) :
    ∃ s, slotResolve w data name = .ok s ∧
      (s.wasPenalized = true ↔
        (pyUpper (p.status.getD "OK") = "C" ∨ normalize_topar p.topar = none)) ∧
      (pyUpper (p.status.getD "OK") = "C" ↔
        ((p.status.getD "OK") = "C" ∨ (p.status.getD "OK") = "c")) ∧
      (s.wasPenalized = true → s.adjusted = w) ∧
      (s.wasPenalized = false → normalize_topar p.topar = some s.adjusted) := by
  unfold slotResolve get_player_score
  dsimp only []
  rw [keyOf_pyStripStr, hfind]
  dsimp only []
  cases hnorm : normalize_topar p.topar with
  | none =>
    exact ⟨⟨pyStripStr name, w, true⟩, rfl, by simp, pyUpper_eq_C_iff _, fun _ => rfl,
      by simp⟩
  | some v =>
    dsimp only []
    by_cases hcut : pyUpper (p.status.getD "OK") = "C"
    · rw [if_pos hcut]
      exact ⟨⟨pyStripStr name, w, true⟩, rfl, by simp [hcut], pyUpper_eq_C_iff _,
        fun _ => rfl, by simp⟩
    · rw [if_neg hcut]
      exact ⟨⟨pyStripStr name, v, false⟩, rfl, by simp [hcut], pyUpper_eq_C_iff _,
        by simp, fun _ => rfl⟩

/-- C6 witness: the amended statement at the cut player `feedC`. -/
theorem c6_witness :
    ∃ s, slotResolve 5 (fetch_live_scores [feedA, feedB, feedC]) "Gamma Three" = .ok s ∧
      (s.wasPenalized = true ↔
        (pyUpper (feedC.status.getD "OK") = "C" ∨ normalize_topar feedC.topar = none)) ∧
      (pyUpper (feedC.status.getD "OK") = "C" ↔
        ((feedC.status.getD "OK") = "C" ∨ (feedC.status.getD "OK") = "c")) ∧
      (s.wasPenalized = true → s.adjusted = 5) ∧
      (s.wasPenalized = false → normalize_topar feedC.topar = some s.adjusted) :=
  c6_found_player_adjusted 5 (fetch_live_scores [feedA, feedB, feedC]) "Gamma Three"
    feedC (by decide)

/-- C7: a successful cycle's leaderboard is ascending in `Total` on every
adjacent pair, and for every total value the rows carrying it appear in
exactly the order the team loop produced them (stability; the team loop
iterates the roster in order). -/
theorem c7_leaderboard_sorted_stable (teams : List Team) (ps : List PlayerRec)
    (rows : List Row) (h : runCycle teams ps = .ok rows) :
    List.Chain' (fun a b : Row => a.Total ≤ b.Total) rows ∧
    ∃ w raws, worst_score (fetch_live_scores ps) = some w ∧
      buildRows w (fetch_live_scores ps) teams = .ok raws ∧
      ∀ t : Int, rows.filter (fun r => decide (r.Total = t)) =
        raws.filter (fun r => decide (r.Total = t)) := by
  obtain ⟨w, raws, hw, hb, hrows⟩ := runCycle_ok_inv h
  subst hrows
  exact ⟨sortRows_sorted raws, w, raws, hw, hb, fun t => filter_sortRows t raws⟩

/-- C7 witness: two teams with equal totals keep their roster order. -/
theorem c7_witness :
    List.Chain' (fun a b : Row => a.Total ≤ b.Total) [rowPat, rowQue] ∧
    ∃ w raws, worst_score (fetch_live_scores [feedA, feedB, feedC]) = some w ∧
      buildRows w (fetch_live_scores [feedA, feedB, feedC]) [teamPat, teamQue] = .ok raws ∧
      ∀ t : Int, ([rowPat, rowQue].filter (fun r => decide (r.Total = t))) =
        raws.filter (fun r => decide (r.Total = t)) :=
  c7_leaderboard_sorted_stable [teamPat, teamQue] [feedA, feedB, feedC]
    [rowPat, rowQue] (by decide)

/-- C8: player lookup is whitespace- and case-insensitive: resolving a
name gives the same result as resolving its trimmed, lower-cased form,
because `get_player_score` keys both through the same
strip-then-lowercase normalization that built the index. -/
theorem c8_lookup_case_insensitive (name : String) (data : List (String × PlayerRec)) :
    get_player_score (pyLower (pyStripStr name)) data = get_player_score name data := by
  unfold get_player_score
  rw [show keyOf (pyLower (pyStripStr name)) = keyOf name from keyOf_idem name]

/-- C9: on a successful cycle every adjusted score is at most the worst
score, and every team total is at most five times the worst score. -/
theorem c9_adjusted_bounded (teams : List Team) (ps : List PlayerRec) (rows : List Row)
    (h : runCycle teams ps = .ok rows) :
    ∃ w, worst_score (fetch_live_scores ps) = some w ∧
      ∀ row ∈ rows, (∀ a ∈ row.AdjustedScores, a ≤ w) ∧ row.Total ≤ 5 * w := by
  obtain ⟨w, raws, hw, hb, hrows⟩ := runCycle_ok_inv h
  refine ⟨w, hw, ?_⟩
  intro row hrow
  have hrow2 : row ∈ raws := by
    rw [hrows] at hrow
    exact (sortRows_perm raws).mem_iff.mp hrow
  obtain ⟨t, _, hteam⟩ := buildRows_ok_inv hb row hrow2
  obtain ⟨slots, hs, _, _, hadj, htotal⟩ := scoreTeam_ok_inv hteam
  have hbound : ∀ a ∈ row.AdjustedScores, a ≤ w := by
    intro a ha
    rw [hadj] at ha
    obtain ⟨sl, hsl, hslval⟩ := List.mem_map.mp ha
    obtain ⟨n, _, hres⟩ := (scoreSlots_ok_inv hs).2 sl hsl
    obtain ⟨p, hfind, _, _, hpen, hnot⟩ := slotResolve_ok_inv hres
    by_cases hp : sl.wasPenalized = true
    · rw [← hslval, hpen hp]
    · have hnorm := hnot (by simpa using hp)
      have hmem : sl.adjusted ∈ scorePool (fetch_live_scores ps) :=
        mem_scorePool_iff.mpr ⟨p, dictGet_mem hfind, hnorm⟩
      rw [← hslval]
      exact (worst_score_spec hw).2 _ hmem
  refine ⟨hbound, ?_⟩
  have hlen6 : row.AdjustedScores.length = 6 := by
    rw [hadj, List.length_map]
    have := (scoreSlots_ok_inv hs).1
    simpa [teamTiers] using this
  have hT : row.Total = ((pySortedInt row.AdjustedScores).take 5).sum := by
    rw [htotal, hadj]
  have hperm := List.perm_insertionSort (fun a b : Int => a ≤ b) row.AdjustedScores
  have hsub : ∀ x ∈ (pySortedInt row.AdjustedScores).take 5, x ≤ w := by
    intro x hx
    exact hbound x (hperm.mem_iff.mp (List.mem_of_mem_take hx))
  have hlen5 : ((pySortedInt row.AdjustedScores).take 5).length = 5 := by
    rw [List.length_take]
    have hl : (pySortedInt row.AdjustedScores).length = 6 := hperm.length_eq.trans hlen6
    omega
  have hsum := List.sum_le_card_nsmul ((pySortedInt row.AdjustedScores).take 5) w hsub
  rw [hlen5] at hsum
  rw [hT]
  have h5w : (5 : Nat) • w = 5 * w := by
    rw [nsmul_eq_mul]
    norm_num
  rw [h5w] at hsum
  exact hsum

/-- C9 witness: on the three-player feed, every adjusted score of
`teamPat`'s row is at most 5 and its total is at most 25. -/
theorem c9_witness :
    ∃ w, worst_score (fetch_live_scores [feedA, feedB, feedC]) = some w ∧
      ∀ row ∈ [rowPat], (∀ a ∈ row.AdjustedScores, a ≤ w) ∧ row.Total ≤ 5 * w :=
  c9_adjusted_bounded [teamPat] [feedA, feedB, feedC] [rowPat] (by decide)

/-- C10: the even-par token is matched exactly: "E" normalizes to 0 while
" E " and "e" fail (and thus penalize), integer tokens tolerate
surrounding whitespace and an explicit sign (" +3 " normalizes to 3), and
every non-"E" input is handled by the integer parser alone. -/
theorem c10_exact_even_par_matching :
    normalize_topar (some "E") = some 0 ∧
    normalize_topar (some " E ") = none ∧
    normalize_topar (some "e") = none ∧
    normalize_topar (some " +3 ") = some 3 ∧
    (∀ s : String, s ≠ "E" → normalize_topar (some s) = pyInt s) := by
  refine ⟨by decide, by decide, by decide, by decide, ?_⟩
  intro s hs
  show (if s = "E" then some 0 else pyInt s) = pyInt s
  rw [if_neg hs]

/-- C10 witness: the generic clause applied at "-7". -/
theorem c10_witness : normalize_topar (some "-7") = pyInt "-7" :=
  c10_exact_even_par_matching.2.2.2.2 "-7" (by decide)
